import Mathlib

/-!
# Verification of the node-lamarzocco session and protocol layer

A shallow embedding of the La Marzocco cloud client's session/protocol core:

* `src/util/authentication.ts` — the custom request-proof algorithm
  (`generateRequestProof`), access-token construction (`createAccessToken`);
* `src/clients/cloud.ts` — the token policy of `asyncGetAccessToken`, its
  lock-based mutual exclusion, the pending-command lifecycle of
  `executeCommand` / `parseWebsocketMessage`, and the reconnect loop of
  `websocketConnect`;
* `src/util/websocket.ts` — the STOMP frame codec
  (`encodeStompWsMessage` / `decodeStompWsMessage`).

Machine bytes are modelled as `Nat` values below 256, JS strings as Lean
`String`/`List Char`, buffers as `List Nat`, and fallible code as `Except`.
Asynchronous behaviour (the token lock, pending commands, the reconnect
loop) is modelled as explicit state machines whose atomic steps are the
run-to-completion segments of the Node.js event loop (code between two
`await` points executes without interleaving).
-/

namespace LaMarzocco

/-! ## Constants (src/const.ts, src/util/authentication.ts) -/

/-- Constant `TOKEN_EXPIRATION = 60 * 60` (seconds), `src/util/authentication.ts:8`. -/
def TOKEN_EXPIRATION : Nat := 60 * 60

/-- Constant `TOKEN_TIME_TO_REFRESH = 10 * 60` (seconds), `src/const.ts:271`. -/
def TOKEN_TIME_TO_REFRESH : Nat := 10 * 60

/-- Constant `PENDING_COMMAND_TIMEOUT = 10000` (milliseconds), `src/const.ts:272`. -/
def PENDING_COMMAND_TIMEOUT : Nat := 10000

/-! ## SHA-256 over byte lists (model of node `crypto.createHash("sha256")`) -/

/-- Truncate to a 32-bit word. -/
def w32 (x : Nat) : Nat := x % 4294967296

/-- 32-bit right rotation. -/
def rotr32 (x n : Nat) : Nat := w32 ((x >>> n) ||| (x <<< (32 - n)))

/-- SHA-256 small sigma 0. -/
def sSig0 (x : Nat) : Nat := rotr32 x 7 ^^^ rotr32 x 18 ^^^ (x >>> 3)

/-- SHA-256 small sigma 1. -/
def sSig1 (x : Nat) : Nat := rotr32 x 17 ^^^ rotr32 x 19 ^^^ (x >>> 10)

/-- SHA-256 big sigma 0. -/
def bSig0 (x : Nat) : Nat := rotr32 x 2 ^^^ rotr32 x 13 ^^^ rotr32 x 22

/-- SHA-256 big sigma 1. -/
def bSig1 (x : Nat) : Nat := rotr32 x 6 ^^^ rotr32 x 11 ^^^ rotr32 x 25

/-- SHA-256 choice function. -/
def shaCh (e f g : Nat) : Nat := (e &&& f) ^^^ ((e ^^^ 4294967295) &&& g)

/-- SHA-256 majority function. -/
def shaMaj (a b c : Nat) : Nat := (a &&& b) ^^^ (a &&& c) ^^^ (b &&& c)

/-- The 64 SHA-256 round constants (FIPS 180-4), as decimal `Nat` words. -/
def shaK : List Nat :=
  [1116352408, 1899447441, 3049323471, 3921009573, 961987163,
   1508970993, 2453635748, 2870763221, 3624381080, 310598401,
   607225278, 1426881987, 1925078388, 2162078206, 2614888103,
   3248222580, 3835390401, 4022224774, 264347078, 604807628,
   770255983, 1249150122, 1555081692, 1996064986, 2554220882,
   2821834349, 2952996808, 3210313671, 3336571891, 3584528711,
   113926993, 338241895, 666307205, 773529912, 1294757372,
   1396182291, 1695183700, 1986661051, 2177026350, 2456956037,
   2730485921, 2820302411, 3259730800, 3345764771, 3516065817,
   3600352804, 4094571909, 275423344, 430227734, 506948616,
   659060556, 883997877, 958139571, 1322822218, 1537002063,
   1747873779, 1955562222, 2024104815, 2227730452, 2361852424,
   2428436474, 2756734187, 3204031479, 3329325298]

/-- The SHA-256 initial hash state (FIPS 180-4), as decimal `Nat` words. -/
def shaH0 : List Nat :=
  [1779033703, 3144134277, 1013904242, 2773480762, 1359893119,
   2600822924, 528734635, 1541459225]

/-- A 64-bit big-endian length field, as 8 bytes. -/
def be64 (n : Nat) : List Nat :=
  [(n >>> 56) % 256, (n >>> 48) % 256, (n >>> 40) % 256, (n >>> 32) % 256,
   (n >>> 24) % 256, (n >>> 16) % 256, (n >>> 8) % 256, n % 256]

/-- Group bytes into big-endian 32-bit words (input length a multiple of 4). -/
def bytesToWords : List Nat → List Nat
  | b0 :: b1 :: b2 :: b3 :: rest =>
      ((b0 <<< 24) ||| (b1 <<< 16) ||| (b2 <<< 8) ||| b3) :: bytesToWords rest
  | _ => []

/-- Split a word list into chunks of 16 words (fuel-driven for structural
recursion; `fuel ≥ ws.length` suffices). -/
def chunkWordsAux (fuel : Nat) (ws : List Nat) : List (List Nat) :=
  match fuel with
  | 0 => []
  | f + 1 =>
      match ws with
      | [] => []
      | _ => ws.take 16 :: chunkWordsAux f (ws.drop 16)

/-- Split a word list into chunks of 16 words. -/
def chunk16 (ws : List Nat) : List (List Nat) := chunkWordsAux ws.length ws

/-- Extend a 16-word chunk to the 64-word message schedule (48 steps). -/
def extendLoop : Nat → List Nat → List Nat
  | 0, w => w
  | f + 1, w =>
      let i := w.length
      let fresh := w32 (sSig1 (w.getD (i - 2) 0) + w.getD (i - 7) 0 +
        sSig0 (w.getD (i - 15) 0) + w.getD (i - 16) 0)
      extendLoop f (w ++ [fresh])

/-- The 64 compression rounds, consuming paired round-constant/schedule words. -/
def compressRounds : List (Nat × Nat) → List Nat → List Nat
  | [], st => st
  | (k, w) :: rest, st =>
      let a := st.getD 0 0
      let b := st.getD 1 0
      let c := st.getD 2 0
      let d := st.getD 3 0
      let e := st.getD 4 0
      let f := st.getD 5 0
      let g := st.getD 6 0
      let h := st.getD 7 0
      let t1 := w32 (h + bSig1 e + shaCh e f g + k + w)
      let t2 := w32 (bSig0 a + shaMaj a b c)
      compressRounds rest [w32 (t1 + t2), a, b, c, w32 (d + t1), e, f, g]

/-- Process one 16-word chunk against the running hash state. -/
def processChunk (st chunk : List Nat) : List Nat :=
  let sched := extendLoop 48 chunk
  let st2 := compressRounds (shaK.zip sched) st
  (st.zip st2).map (fun p => w32 (p.1 + p.2))

/-- One hash word as 4 big-endian bytes. -/
def wordBytesBE (wd : Nat) : List Nat :=
  [(wd >>> 24) % 256, (wd >>> 16) % 256, (wd >>> 8) % 256, wd % 256]

/-- SHA-256 of a byte list, as a 32-byte list. -/
def sha256 (bytes : List Nat) : List Nat :=
  let len := bytes.length
  let padZeros := (64 - ((len + 9) % 64)) % 64
  let padded := bytes ++ [0x80] ++ List.replicate padZeros 0 ++ be64 (8 * len)
  let final := (chunk16 (bytesToWords padded)).foldl processChunk shaH0
  final.flatMap wordBytesBE

/-! ## Base64 (model of node `Buffer.toString("base64")`) -/

/-- The standard base64 alphabet. -/
def base64Alphabet : List Char :=
  "ABCDEFGHIJKLMNOPQRSTUVWXYZabcdefghijklmnopqrstuvwxyz0123456789+/".data

/-- A 6-bit group as a base64 character. -/
def b64Char (n : Nat) : Char := base64Alphabet.getD (n % 64) 'A'

/-- Base64-encode a byte list (standard padding). -/
def b64Chars : List Nat → List Char
  | [] => []
  | [a] =>
      [b64Char (a >>> 2), b64Char ((a % 4) <<< 4), '=', '=']
  | [a, b] =>
      [b64Char (a >>> 2), b64Char (((a % 4) <<< 4) ||| (b >>> 4)),
       b64Char ((b % 16) <<< 2), '=']
  | a :: b :: c :: rest =>
      b64Char (a >>> 2) :: b64Char (((a % 4) <<< 4) ||| (b >>> 4)) ::
        b64Char ((((b % 16) <<< 2) ||| (c >>> 6))) :: b64Char (c % 64) ::
        b64Chars rest

/-- The `b64` helper of `src/util/authentication.ts:13`: base64 of a buffer. -/
def b64 (bytes : List Nat) : String := String.mk (b64Chars bytes)

/-! ## The request-proof algorithm (src/util/authentication.ts:97-121) -/

/-- The UTF-8 bytes of a string, as `Nat`s
(model of `Buffer.from(baseString, "utf-8")`). -/
def utf8Bytes (s : String) : List Nat := s.toUTF8.toList.map (fun b => b.toNat)

/-- One iteration of the proof loop exactly as written in the source
(`src/util/authentication.ts:108-117`): JS left-shift/right-shift/or, masked
to 8 bits. -/
def proofStep (work : List Nat) (byteVal : Nat) : List Nat :=
  let idx := byteVal % 32
  let shiftIdx := (idx + 1) % 32
  let shiftAmount := work.getD shiftIdx 0 &&& 7
  let xorResult := byteVal ^^^ work.getD idx 0
  let rotated := ((xorResult <<< shiftAmount) ||| (xorResult >>> (8 - shiftAmount))) % 256
  work.set idx rotated

/-- The whole byte-transform loop of `generateRequestProof` over the message
bytes, starting from the mutable copy of the secret. -/
def proofTransform (message work : List Nat) : List Nat :=
  message.foldl proofStep work

/-- Model of `generateRequestProof` (`src/util/authentication.ts:97-121`): rejects
secrets that are not exactly 32 bytes, then base64 of SHA-256 of the
transformed working buffer. The thrown `Error("secret must be 32 bytes")`
(the spec's `InvalidKeyMaterial`) is modelled as `Except.error`. -/
def generateRequestProof (baseString : String) (secret32 : List Nat) :
    Except String String :=
  if secret32.length ≠ 32 then .error "secret must be 32 bytes"
  else .ok (b64 (sha256 (proofTransform (utf8Bytes baseString) secret32)))

/-- The reference 8-bit left rotation from the spec (§4.1): rotation by 0 is
the identity; defined arithmetically on bytes. -/
def rotateLeft8 (x s : Nat) : Nat := (x * 2 ^ s + x / 2 ^ (8 - s)) % 256

/-- One iteration of the reference algorithm of the spec (§4.1):
`idx = b mod 32`, `shiftAmount = secret[(idx+1) mod 32] & 7`,
`secret[idx] = rotateLeft8(b XOR secret[idx], shiftAmount)`. -/
def proofStepSpec (work : List Nat) (b : Nat) : List Nat :=
  let idx := b % 32
  let shiftAmount := work.getD ((idx + 1) % 32) 0 &&& 7
  work.set idx (rotateLeft8 (b ^^^ work.getD idx 0) shiftAmount)

/-- The reference proof function, following the spec's words (§4.1): run the
reference transform over the UTF-8 message bytes, then base64 of SHA-256 of
the final 32-byte buffer; fails on secrets that are not 32 bytes. -/
def generateRequestProofSpec (message : String) (secret32 : List Nat) :
    Except String String :=
  if secret32.length ≠ 32 then .error "secret must be 32 bytes"
  else .ok (b64 (sha256 ((utf8Bytes message).foldl proofStepSpec secret32)))

/-! ## Access tokens and the token policy (src/clients/cloud.ts:141-227) -/

/-- The `AccessToken` record of `src/util/authentication.ts:38-42`
(`expiresAt` is a Unix timestamp in seconds). -/
structure AccessTokenData where
  accessToken : String
  refreshToken : String
  expiresAt : Nat
deriving DecidableEq, Repr

/-- Model of `createAccessToken` (`src/util/authentication.ts:234-243`):
`expiresAt = Math.floor(Date.now() / 1000) + TOKEN_EXPIRATION`; the
issuance clock `Date.now()` (milliseconds) is an explicit parameter. -/
def createAccessToken (accessToken refreshToken : String) (nowMs : Nat) :
    AccessTokenData :=
  { accessToken, refreshToken, expiresAt := nowMs / 1000 + TOKEN_EXPIRATION }

/-- Which of the three token actions `asyncGetAccessToken` takes. -/
inductive TokenAction where
  | signIn
  | refresh
  | reuse
deriving DecidableEq, Repr

/-- The token policy of `asyncGetAccessToken` (`src/clients/cloud.ts:150-156`):
no token or expired token → sign in; token inside the refresh window →
refresh; otherwise reuse the held token. -/
def tokenPolicy (tok : Option AccessTokenData) (nowSec : Nat) : TokenAction :=
  match tok with
  | none => .signIn
  | some t =>
      if t.expiresAt < nowSec then .signIn
      else if t.expiresAt < nowSec + TOKEN_TIME_TO_REFRESH then .refresh
      else .reuse

/-- The REST request a call to `asyncGetAccessToken` issues, if any:
`asyncSignIn` posts username/password (`src/clients/cloud.ts:167-173`);
`asyncRefreshToken` posts username and the stored refresh token
(`src/clients/cloud.ts:178-187`); the reuse path makes no request. -/
inductive TokenRequest where
  | signInReq (username password : String)
  | refreshReq (username refreshToken : String)
deriving DecidableEq, Repr

/-- The request issued by one pass through the policy, given the credentials
and the held token. -/
def tokenRequestMade (username password : String) (tok : Option AccessTokenData)
    (nowSec : Nat) : Option TokenRequest :=
  match tokenPolicy tok nowSec with
  | .signIn => some (.signInReq username password)
  | .refresh =>
      match tok with
      | some t => some (.refreshReq username t.refreshToken)
      | none => none
  | .reuse => none

/-- Outcome of awaiting one token REST call (`asyncGetToken`,
`src/clients/cloud.ts:192-227`): the response body's token strings, or a
thrown error. -/
inductive NetOutcome where
  | ok (accessToken refreshToken : String)
  | thrown (e : String)
deriving DecidableEq, Repr

/-- The locked section of `asyncGetAccessToken`
(`src/clients/cloud.ts:147-161`), run with the lock held. `nowSec` is the
clock read at entry (`Math.floor(Date.now() / 1000)`), `finishMs` the clock
read by `createAccessToken` when the awaited call returns, `net` the outcome
of the sign-in/refresh call if one is made. Returns the stored token
afterwards, the lock afterwards (always released by `finally`), whether a
network call was made, and the caller's result: on a thrown error the
token assignment in the `try` block is skipped, so the stored token is
unchanged. -/
def getAccessTokenBody (tok : Option AccessTokenData) (nowSec finishMs : Nat)
    (net : NetOutcome) :
    Option AccessTokenData × Bool × Bool × Except String String :=
  match tokenPolicy tok nowSec, tok, net with
  | .reuse, some t, _ => (some t, false, false, .ok t.accessToken)
  | .reuse, none, _ => (none, false, false, .error "no access token")
  | _, _, .ok a r =>
      let fresh := createAccessToken a r finishMs
      (some fresh, false, true, .ok fresh.accessToken)
  | _, _, .thrown e => (tok, false, true, .error e)

/-! ## The token lock under concurrent callers (src/clients/cloud.ts:141-162)

The `accessTokenLock` flag is polled in a `while … await setTimeout` loop;
the check of the flag and setting it to `true` happen in one
run-to-completion segment of the event loop (there is no `await` between
them), so lock acquisition is atomic. The model below interleaves callers
at their suspension points: `acquire` is one caller passing the lock check
(and either returning a reused token or starting a sign-in/refresh call),
`finishOk`/`finishThrown` is the awaited REST call of the in-flight caller
completing. The clock is held fixed for the duration of the episode. -/

/-- One scheduler event in the token-lock model. -/
inductive LockEvent where
  | acquire
  | finishOk (accessToken refreshToken : String)
  | finishThrown
deriving DecidableEq, Repr

/-- Shared state of `LaMarzoccoCloudClient` relevant to `asyncGetAccessToken`,
plus bookkeeping: `pending` counts callers that have not yet entered the
locked section, `inFlight` is set while a sign-in/refresh call is awaited,
`ops` records the token REST calls made (in order), `done` the access-token
strings returned to finished callers. -/
structure LockState where
  token : Option AccessTokenData
  lock : Bool
  pending : Nat
  inFlight : Bool
  ops : List TokenAction
  done : List String
  nowSec : Nat
deriving DecidableEq, Repr

/-- One event of the token-lock model. A caller that finds the lock taken
keeps waiting (no state change); one that takes the lock re-evaluates
`tokenPolicy` from the current state: on reuse it returns the held token and
releases the lock within the same atomic segment, otherwise it starts the
corresponding REST call. A completing call stores
`createAccessToken` of the response and releases the lock; a throwing call
just releases the lock (`finally`). -/
def lockStep (s : LockState) (e : LockEvent) : LockState :=
  match e with
  | .acquire =>
      if s.lock then s
      else
        match s.pending with
        | 0 => s
        | p + 1 =>
            match tokenPolicy s.token s.nowSec, s.token with
            | .reuse, some t =>
                { s with pending := p, done := t.accessToken :: s.done }
            | .reuse, none => s
            | a, _ =>
                { s with lock := true, inFlight := true, pending := p,
                         ops := s.ops ++ [a] }
  | .finishOk a r =>
      if s.inFlight then
        { s with lock := false, inFlight := false,
                 token := some (createAccessToken a r (s.nowSec * 1000)),
                 done := a :: s.done }
      else s
  | .finishThrown =>
      if s.inFlight then { s with lock := false, inFlight := false } else s

/-- Initial state: `n` concurrent callers of `asyncGetAccessToken`, held
token `tok`, lock free, no calls made. -/
def lockInit (tok : Option AccessTokenData) (n nowSec : Nat) : LockState :=
  { token := tok, lock := false, pending := n, inFlight := false,
    ops := [], done := [], nowSec }

/-- Run a schedule of events. -/
def lockRun (s : LockState) (events : List LockEvent) : LockState :=
  events.foldl lockStep s

/-! ## The STOMP frame codec (src/util/websocket.ts) -/

/-- The `StompMessageType` enumeration of `src/const.ts:98-105`. -/
inductive StompMessageType where
  | CONNECT
  | CONNECTED
  | SUBSCRIBE
  | UNSUBSCRIBE
  | MESSAGE
  | ERROR
deriving DecidableEq, Repr

/-- The string value of a `StompMessageType` member (its `toString()`). -/
def StompMessageType.toStr : StompMessageType → String
  | .CONNECT => "CONNECT"
  | .CONNECTED => "CONNECTED"
  | .SUBSCRIBE => "SUBSCRIBE"
  | .UNSUBSCRIBE => "UNSUBSCRIBE"
  | .MESSAGE => "MESSAGE"
  | .ERROR => "ERROR"

/-- JS `Array.prototype.join(sep)` on strings. -/
def jsJoin (sep : String) : List String → String
  | [] => ""
  | [x] => x
  | x :: rest => x ++ sep ++ jsJoin sep rest

/-- Model of `encodeStompWsMessage` (`src/util/websocket.ts`): type line,
`key:value` header lines joined with newlines, a blank line, the body when
it is present and non-empty (JS truthiness of `if (body)`), and a trailing
NUL byte. Headers are the insertion-ordered entries of the JS object. -/
def encodeStompWsMessage (msgType : StompMessageType)
    (headers : List (String × String)) (body : Option String) : String :=
  let fragments := msgType.toStr :: headers.map (fun kv => kv.1 ++ ":" ++ kv.2)
  let msg := jsJoin "\n" fragments ++ "\n\n"
  let msg :=
    match body with
    | some b => if b.isEmpty then msg else msg ++ b
    | none => msg
  msg ++ "\x00"

/-- Fuel-driven splitting of a character list on a non-empty separator
sequence, leftmost-first — the semantics of JS `String.prototype.split`
with a string separator. `fuel ≥ xs.length` suffices. -/
def splitSeqAux (sep : List Char) : Nat → List Char → List Char → List (List Char)
  | 0, xs, cur => [cur.reverse ++ xs]
  | f + 1, xs, cur =>
      match xs with
      | [] => [cur.reverse]
      | c :: rest =>
          if sep.isPrefixOf xs then
            cur.reverse :: splitSeqAux sep f (xs.drop sep.length) []
          else
            splitSeqAux sep f rest (c :: cur)

/-- Split a character list on a separator sequence (JS `split` semantics). -/
def splitSeq (sep xs : List Char) : List (List Char) :=
  splitSeqAux sep xs.length xs []

/-- Whether a separator sequence occurs contiguously in a character list. -/
def hasSeq (sep : List Char) : List Char → Bool
  | [] => sep.isEmpty
  | c :: rest => sep.isPrefixOf (c :: rest) || hasSeq sep rest

/-- JS object assignment `headers[key] = value` on an insertion-ordered
record: overwrite in place when the key exists, append otherwise. -/
def recordSet (m : List (String × String)) (k v : String) :
    List (String × String) :=
  if m.any (fun kv => kv.1 = k) then
    m.map (fun kv => if kv.1 = k then (k, v) else kv)
  else m ++ [(k, v)]

/-- One header line of `decodeStompWsMessage`: `indexOf(":")`, skipped unless
the first colon is at a positive index; key is the text before the first
colon, value everything after it. -/
def parseHeaderLine (line : List Char) : Option (String × String) :=
  match splitSeq [':'] line with
  | k :: rest =>
      match rest with
      | [] => none
      | _ :: _ =>
          if k = [] then none
          else some (String.mk k, String.mk (List.intercalate [':'] rest))
  | [] => none

/-- The result record of `decodeStompWsMessage`; `data = none` models JS
`null`, `data = some ""` a present-but-empty string (the two are distinct
values in the source). -/
structure StompDecoded where
  msgType : String
  headers : List (String × String)
  data : Option String
deriving DecidableEq, Repr

/-- Model of `decodeStompWsMessage` (`src/util/websocket.ts`): split on the
first blank line (`split("\n\n", 2)`), first header-block line is the type,
remaining lines parsed on their first colon into an insertion-ordered
record, and the body part is `data || null` (so an empty or missing part
becomes `null`) with exactly one trailing NUL stripped when present. -/
def decodeStompWsMessage (msg : String) : StompDecoded :=
  let parts := splitSeq ['\n', '\n'] msg.data
  let header := parts.headD []
  let dataPart : Option (List Char) :=
    match parts with
    | _ :: d :: _ => some d
    | _ => none
  let metadata := splitSeq ['\n'] header
  let msgType := String.mk (metadata.headD [])
  let headers := (metadata.drop 1).foldl
    (fun acc line =>
      match parseHeaderLine line with
      | some kv => recordSet acc kv.1 kv.2
      | none => acc) []
  let data : Option String :=
    match dataPart with
    | none => none
    | some [] => none
    | some d =>
        if d.getLast? = some '\x00' then some (String.mk d.dropLast)
        else some (String.mk d)
  { msgType, headers, data }

/-- The decoded body the round-trip produces for a given encoded body:
an omitted or empty body comes back as the empty string (never as `null`,
because the NUL terminator makes the data part non-empty). -/
def bodyText : Option String → String
  | none => ""
  | some b => b

/-! ## Pending commands (src/clients/cloud.ts:555-638) -/

/-- The `CommandStatus` enumeration of `src/const.ts:78-84`. -/
inductive CommandStatusT where
  | SUCCESS
  | ERROR
  | TIMEOUT
  | PENDING
  | IN_PROGRESS
deriving DecidableEq, Repr

/-- The `CommandResponse` model of `src/models/general.ts:23-27`. -/
structure CommandResponse where
  id : String
  status : CommandStatusT
  errorCode : Option String
deriving DecidableEq, Repr

/-- State of one registered pending command: whether its id is still in the
`pendingCommands` map, whether its `setTimeout` timer is still pending (not
fired and not cleared), and the values passed to `resolve`, in order. -/
structure PendingSlot where
  present : Bool
  timerActive : Bool
  resolved : List Bool
deriving DecidableEq, Repr

/-- Events that can reach one pending command: an inbound confirmation
entry from `parseWebsocketMessage`'s commands loop, or its timeout timer
firing. -/
inductive PendingEvent where
  | confirm (r : CommandResponse)
  | timerFire
deriving DecidableEq, Repr

/-- State right after `executeCommand` registers the pending entry
(`src/clients/cloud.ts:616-637`): in the map, timer armed, not resolved. -/
def pendingInit : PendingSlot :=
  { present := true, timerActive := true, resolved := [] }

/-- One event against a pending command with id `cmdId`. A confirmation is
looked up by id (`src/clients/cloud.ts:576-582`): on a hit the entry's
`resolve` runs — which clears the timer and resolves `true` exactly when
the status is `SUCCESS` — and the entry is deleted; on a miss nothing
happens. The timer callback (`src/clients/cloud.ts:617-621`) can only run
while the timer is pending; it deletes the entry and resolves `false`. -/
def pendingStep (cmdId : String) (s : PendingSlot) (e : PendingEvent) :
    PendingSlot :=
  match e with
  | .confirm r =>
      if r.id = cmdId then
        if s.present then
          { present := false, timerActive := false,
            resolved := s.resolved ++ [r.status == .SUCCESS] }
        else s
      else s
  | .timerFire =>
      if s.timerActive then
        { present := false, timerActive := false,
          resolved := s.resolved ++ [false] }
      else s

/-- Whether an event can resolve the pending command with id `cmdId` from
its initial state: a confirmation with the matching id, or the timer. -/
def isEffective (cmdId : String) (e : PendingEvent) : Bool :=
  match e with
  | .confirm r => r.id == cmdId
  | .timerFire => true

/-- The value `resolve` receives from an effective event: status = SUCCESS
for a confirmation, `false` for the timeout. -/
def eventValue (e : PendingEvent) : Bool :=
  match e with
  | .confirm r => r.status == .SUCCESS
  | .timerFire => false

/-- The boolean `executeCommand` resolves with, as a function of whether a
realtime session is connected and of the events that reach the pending
entry, in order (`src/clients/cloud.ts:597-638`): not connected → `true`
immediately; otherwise the first value passed to `resolve`, `none` while
still pending. The timer-fire event occurs `PENDING_COMMAND_TIMEOUT`
milliseconds after registration, so confirmations earlier in the list
arrived within the timeout. -/
def executeCommandOutcome (connected : Bool) (cmdId : String)
    (events : List PendingEvent) : Option Bool :=
  if connected then
    ((events.foldl (pendingStep cmdId) pendingInit).resolved).head?
  else some true

/-! ## The reconnect loop (src/clients/cloud.ts:420-467) -/

/-- How one `while (autoReconnect)` iteration of `websocketConnect` ends:
the try block ran to completion (the close event resolved the awaited
promise — a post-handshake close), or an exception was thrown (connection
attempt or handshake failure). -/
inductive ConnOutcome where
  | cleanClose
  | connectError
deriving DecidableEq, Repr

/-- What the loop does next after an iteration ends. -/
inductive LoopAction where
  | retryAfterDelayMs (ms : Nat)
  | retryNow
  | exitLoop
deriving DecidableEq, Repr

/-- The continuation of the reconnect loop of `websocketConnect`
(`src/clients/cloud.ts:427-466`), given the immutable `autoReconnect`
argument and how the iteration ended. When `autoReconnect` is false the
`while` body never runs. When the try block completes (clean close) the
loop re-enters immediately; only the catch path — after its dead
`if (!autoReconnect) break` check — sleeps 5000 ms before retrying. -/
def websocketReconnectStep (autoReconnect : Bool) (o : ConnOutcome) :
    LoopAction :=
  if autoReconnect then
    match o with
    | .cleanClose => .retryNow
    | .connectError =>
        if !autoReconnect then .exitLoop else .retryAfterDelayMs 5000
  else .exitLoop

/-- Reachability invariant of the token-lock model for any scenario whose
initial policy is a network action (token absent, expired, or inside the
refresh window, with `n` callers): the lock is held exactly while a call
is in flight, and the episode is in one of three phases — nobody has
entered yet, the single sign-in/refresh call prescribed by the initial
policy is in flight, or it has completed and the freshly created token is
stored. -/
def lockInvariant (tok0 : Option AccessTokenData) (n nowSec : Nat)
    (s : LockState) : Prop :=
  s.nowSec = nowSec ∧ s.lock = s.inFlight ∧
  ((s.token = tok0 ∧ s.inFlight = false ∧ s.ops = [] ∧ s.pending = n) ∨
   (s.token = tok0 ∧ s.inFlight = true ∧
     s.ops = [tokenPolicy tok0 nowSec]) ∨
   (s.inFlight = false ∧ s.ops = [tokenPolicy tok0 nowSec] ∧
     ∃ a r, s.token = some (createAccessToken a r (nowSec * 1000))))

/-! # Theorems -/

/-! ## The proof byte transform: source expression vs reference rotation -/

set_option maxRecDepth 10000 in
/-- On bytes and shift amounts below 8, the source's JS shift/or/mask
expression computes the reference 8-bit left rotation (identity at 0). -/
theorem jsRotate_eq_rotateLeft8 :
    ∀ x < 256, ∀ s < 8,
      ((x <<< s) ||| (x >>> (8 - s))) % 256 = rotateLeft8 x s := by decide

/-- Reading any position of a byte-bounded buffer yields a byte. -/
theorem getD_lt_256 {w : List Nat} (hw : ∀ b ∈ w, b < 256) (i : Nat) :
    w.getD i 0 < 256 := by
  by_cases hi : i < w.length
  · rw [List.getD_eq_getElem w 0 hi]
    exact hw _ (List.getElem_mem hi)
  · rw [List.getD_eq_default w 0 (le_of_not_lt hi)]
    norm_num

/-- The reference transform step keeps the buffer byte-bounded. -/
theorem proofStepSpec_bounds {w : List Nat} (hw : ∀ b ∈ w, b < 256) (b : Nat) :
    ∀ y ∈ proofStepSpec w b, y < 256 := by
  intro y hy
  simp only [proofStepSpec] at hy
  rcases List.mem_or_eq_of_mem_set hy with h | h
  · exact hw _ h
  · rw [h, rotateLeft8]
    exact Nat.mod_lt _ (by norm_num)

/-- On byte-bounded buffers and message bytes, the source step equals the
reference step. -/
theorem proofStep_eq_spec {w : List Nat} (hw : ∀ b ∈ w, b < 256) {b : Nat}
    (hb : b < 256) : proofStep w b = proofStepSpec w b := by
  have hx : b ^^^ w.getD (b % 32) 0 < 256 := by
    have e : (2 : Nat) ^ 8 = 256 := by norm_num
    have h1 : b < 2 ^ 8 := by rw [e]; exact hb
    have h2 : w.getD (b % 32) 0 < 2 ^ 8 := by rw [e]; exact getD_lt_256 hw _
    have h3 := Nat.xor_lt_two_pow h1 h2
    rw [e] at h3; exact h3
  have hs : w.getD ((b % 32 + 1) % 32) 0 &&& 7 < 8 :=
    lt_of_le_of_lt Nat.and_le_right (by norm_num)
  simp only [proofStep, proofStepSpec]
  rw [jsRotate_eq_rotateLeft8 _ hx _ hs]

/-- The whole transform loop of the source equals the reference loop on
byte-bounded inputs. -/
theorem proofTransform_eq_spec :
    ∀ msg : List Nat, (∀ b ∈ msg, b < 256) →
      ∀ w : List Nat, (∀ y ∈ w, y < 256) →
        msg.foldl proofStep w = msg.foldl proofStepSpec w := by
  intro msg
  induction msg with
  | nil => intro _ w _; rfl
  | cons b rest ih =>
      intro hmsg w hw
      have hb : b < 256 := hmsg b (List.mem_cons_self b rest)
      simp only [List.foldl_cons]
      rw [proofStep_eq_spec hw hb]
      exact ih (fun x hx => hmsg x (List.mem_cons_of_mem b hx)) _
        (proofStepSpec_bounds hw b)

/-- UTF-8 bytes are bytes. -/
theorem utf8Bytes_lt (s : String) : ∀ b ∈ utf8Bytes s, b < 256 := by
  intro b hb
  simp only [utf8Bytes, List.mem_map] at hb
  obtain ⟨u, _, rfl⟩ := hb
  exact u.toNat_lt

/-- C1: for every message string and every 32-byte secret, the source's
proof function equals the reference algorithm — working on a mutable copy
of the secret, for each UTF-8 byte `b` in order, `idx = b mod 32`,
`shiftAmount = secret[(idx+1) mod 32] & 7`, and `secret[idx]` becomes the
8-bit left rotation of `b XOR secret[idx]` by `shiftAmount` with rotation
by 0 the identity, followed by base64 of SHA-256 of the final buffer — and
the function is deterministic. -/
theorem c1_generateRequestProof_matches_reference (msg : String)
    (secret : List Nat) (hlen : secret.length = 32)
    (hbytes : ∀ b ∈ secret, b < 256) :
    generateRequestProof msg secret = generateRequestProofSpec msg secret ∧
    generateRequestProof msg secret = generateRequestProof msg secret := by
  refine ⟨?_, rfl⟩
  simp only [generateRequestProof, generateRequestProofSpec, proofTransform,
    hlen]
  rw [proofTransform_eq_spec (utf8Bytes msg) (utf8Bytes_lt msg) secret hbytes]

/-- Witness for C1: the concrete message "abc" and the secret 0,1,…,31. -/
theorem c1_generateRequestProof_matches_reference_witness :
    (List.range 32).length = 32 ∧ (∀ b ∈ List.range 32, b < 256) ∧
      generateRequestProof "abc" (List.range 32) =
        generateRequestProofSpec "abc" (List.range 32) :=
  ⟨by decide, by decide,
    (c1_generateRequestProof_matches_reference "abc" (List.range 32)
      (by decide) (by decide)).1⟩

/-- C8: the proof function fails with the invalid-key-material error
(`Error("secret must be 32 bytes")`) exactly when the secret is not 32
bytes, and produces a proof string exactly when it is. -/
theorem c8_invalid_secret_length_fails (msg : String) (secret : List Nat) :
    (generateRequestProof msg secret = .error "secret must be 32 bytes" ↔
      secret.length ≠ 32) ∧
    ((∃ p, generateRequestProof msg secret = .ok p) ↔ secret.length = 32) := by
  by_cases h : secret.length = 32 <;> simp [generateRequestProof, h]

/-- C9: every access token built by `createAccessToken` — the constructor
both the sign-in and the refresh response pass through
(`src/clients/cloud.ts:203-206`) — carries `expiresAt` equal to the
issuance time in seconds plus exactly one hour, independently of the token
strings the server returned. -/
theorem c9_expiresAt_is_issuance_plus_one_hour (a r a2 r2 : String)
    (nowMs : Nat) :
    (createAccessToken a r nowMs).expiresAt = nowMs / 1000 + 3600 ∧
    (createAccessToken a r nowMs).expiresAt =
      (createAccessToken a2 r2 nowMs).expiresAt ∧
    TOKEN_EXPIRATION = 60 * 60 :=
  ⟨rfl, rfl, rfl⟩

/-- C3: the policy of `asyncGetAccessToken` at time `now`: with no token
held it signs in; with a held token it signs in exactly when the token is
expired, refreshes — with a request carrying the stored refresh token —
exactly when the token is valid but within ten minutes of expiry, and
otherwise returns the held token unchanged with no network call. -/
theorem c3_get_access_token_policy (t : AccessTokenData)
    (username password : String) (nowSec finishMs : Nat) (net : NetOutcome) :
    tokenPolicy none nowSec = .signIn ∧
    (tokenPolicy (some t) nowSec = .signIn ↔ t.expiresAt < nowSec) ∧
    (tokenPolicy (some t) nowSec = .refresh ↔
      nowSec ≤ t.expiresAt ∧
        t.expiresAt < nowSec + TOKEN_TIME_TO_REFRESH) ∧
    (tokenPolicy (some t) nowSec = .refresh ↔
      tokenRequestMade username password (some t) nowSec =
        some (.refreshReq username t.refreshToken)) ∧
    (tokenPolicy (some t) nowSec = .reuse ↔
      getAccessTokenBody (some t) nowSec finishMs net =
        (some t, false, false, .ok t.accessToken)) := by
  refine ⟨rfl, ?_, ?_, ?_, ?_⟩ <;>
    by_cases h1 : t.expiresAt < nowSec <;>
      by_cases h2 : t.expiresAt < nowSec + TOKEN_TIME_TO_REFRESH <;>
        cases net <;>
          simp [tokenPolicy, tokenRequestMade, getAccessTokenBody, h1, h2] <;>
            omega

/-- C10: when the awaited sign-in or refresh throws, the stored token is
unchanged by the call, the lock flag is released by the `finally` block,
and the error propagates — so the failed attempt does not block later
callers. -/
theorem c10_thrown_error_releases_lock (tok : Option AccessTokenData)
    (nowSec finishMs : Nat) (e : String)
    (h : tokenPolicy tok nowSec ≠ .reuse) :
    getAccessTokenBody tok nowSec finishMs (.thrown e) =
      (tok, false, true, .error e) := by
  cases hp : tokenPolicy tok nowSec with
  | signIn => simp [getAccessTokenBody, hp]
  | refresh => simp [getAccessTokenBody, hp]
  | reuse => exact absurd hp h

/-- Witness for C10: no token held and a thrown network error. -/
theorem c10_thrown_error_releases_lock_witness :
    tokenPolicy none 0 ≠ .reuse ∧
      getAccessTokenBody none 0 0 (.thrown "boom") =
        (none, false, true, .error "boom") :=
  ⟨by decide, c10_thrown_error_releases_lock none 0 0 "boom" (by decide)⟩

/-! ## The token lock under concurrency -/

/-- A caller that finds the lock taken changes nothing: it waits. -/
theorem lockStep_acquire_locked (s : LockState) (h : s.lock = true) :
    lockStep s .acquire = s := by
  simp [lockStep, h]

/-- An acquire with nobody pending changes nothing. -/
theorem lockStep_acquire_idle (s : LockState) (h : s.lock = false)
    (hp : s.pending = 0) : lockStep s .acquire = s := by
  simp [lockStep, h, hp]

/-- A caller that takes the lock under the reuse policy returns the held
token and releases within the same atomic segment. -/
theorem lockStep_acquire_reuse (s : LockState) (tk : AccessTokenData)
    (p : Nat) (h : s.lock = false) (hp : s.pending = p + 1)
    (htok : s.token = some tk)
    (hpol : tokenPolicy s.token s.nowSec = .reuse) :
    lockStep s .acquire =
      { s with pending := p, done := tk.accessToken :: s.done } := by
  rw [htok] at hpol
  simp [lockStep, h, hp, htok, hpol]

/-- A caller that takes the lock under a sign-in or refresh policy starts
that REST call. -/
theorem lockStep_acquire_net (s : LockState) (a : TokenAction) (p : Nat)
    (h : s.lock = false) (hp : s.pending = p + 1)
    (hpol : tokenPolicy s.token s.nowSec = a) (ha : a ≠ .reuse) :
    lockStep s .acquire =
      { s with lock := true, inFlight := true, pending := p,
               ops := s.ops ++ [a] } := by
  cases a with
  | reuse => exact absurd rfl ha
  | signIn => simp [lockStep, h, hp, hpol]
  | refresh => simp [lockStep, h, hp, hpol]

/-- A completing REST call stores the freshly created token and releases
the lock. -/
theorem lockStep_finishOk (s : LockState) (a r : String)
    (h : s.inFlight = true) :
    lockStep s (.finishOk a r) =
      { s with lock := false, inFlight := false,
               token := some (createAccessToken a r (s.nowSec * 1000)),
               done := a :: s.done } := by
  simp [lockStep, h]

/-- A completion event with no call in flight changes nothing. -/
theorem lockStep_finishOk_idle (s : LockState) (a r : String)
    (h : s.inFlight = false) : lockStep s (.finishOk a r) = s := by
  simp [lockStep, h]

/-- One event preserves the lock invariant whenever the initial policy is
a network action (failure-free schedules). -/
theorem lockInvariant_step (tok0 : Option AccessTokenData) (n nowSec : Nat)
    (hpol0 : tokenPolicy tok0 nowSec ≠ .reuse)
    (s : LockState) (e : LockEvent) (he : e ≠ .finishThrown)
    (hs : lockInvariant tok0 n nowSec s) :
    lockInvariant tok0 n nowSec (lockStep s e) := by
  obtain ⟨hnow, hlock, hphase⟩ := hs
  cases e with
  | acquire =>
      by_cases hl : s.lock = true
      · rw [lockStep_acquire_locked s hl]
        exact ⟨hnow, hlock, hphase⟩
      · have hl2 : s.lock = false := by simpa using hl
        cases hp : s.pending with
        | zero =>
            rw [lockStep_acquire_idle s hl2 hp]
            exact ⟨hnow, hlock, hphase⟩
        | succ p =>
            rcases hphase with ⟨htok, hif, hops, -⟩ | ⟨-, hif, -⟩ |
                ⟨hif, hops, a, r, htok⟩
            · have hpol : tokenPolicy s.token s.nowSec =
                  tokenPolicy tok0 nowSec := by
                rw [htok, hnow]
              rw [lockStep_acquire_net s (tokenPolicy tok0 nowSec) p hl2 hp
                hpol hpol0]
              exact ⟨hnow, rfl, Or.inr (Or.inl ⟨htok, rfl, by simp [hops]⟩)⟩
            · exact absurd (hlock.trans hif) hl
            · have hexp :
                  (createAccessToken a r (nowSec * 1000)).expiresAt =
                    nowSec + 3600 := by
                unfold createAccessToken TOKEN_EXPIRATION
                simp [Nat.mul_div_cancel nowSec (by norm_num : (0:Nat) < 1000)]
              have hpol : tokenPolicy s.token s.nowSec = .reuse := by
                rw [htok, hnow]
                simp only [tokenPolicy]
                rw [hexp]
                have hr : TOKEN_TIME_TO_REFRESH = 600 := rfl
                rw [if_neg (by omega), if_neg (by omega)]
              rw [lockStep_acquire_reuse s _ p hl2 hp htok hpol]
              exact ⟨hnow, hlock, Or.inr (Or.inr ⟨hif, hops, a, r, htok⟩)⟩
  | finishOk a2 r2 =>
      by_cases hf : s.inFlight = true
      · rcases hphase with ⟨-, hif, -, -⟩ | ⟨-, -, hops⟩ | ⟨hif, -, -⟩
        · exact absurd (hif ▸ hf) (by simp)
        · rw [lockStep_finishOk s a2 r2 hf]
          exact ⟨hnow, rfl, Or.inr (Or.inr
            ⟨rfl, by simp [hops], a2, r2, by simp [hnow]⟩)⟩
        · exact absurd (hif ▸ hf) (by simp)
      · have hf2 : s.inFlight = false := by simpa using hf
        rw [lockStep_finishOk_idle s a2 r2 hf2]
        exact ⟨hnow, hlock, hphase⟩
  | finishThrown => exact absurd rfl he

/-- A failure-free schedule preserves the lock invariant. -/
theorem lockInvariant_run (tok0 : Option AccessTokenData) (n nowSec : Nat)
    (hpol0 : tokenPolicy tok0 nowSec ≠ .reuse) :
    ∀ (events : List LockEvent) (s : LockState),
      LockEvent.finishThrown ∉ events → lockInvariant tok0 n nowSec s →
        lockInvariant tok0 n nowSec (lockRun s events) := by
  intro events
  induction events with
  | nil => intro s _ hs; exact hs
  | cons e rest ih =>
      intro s hmem hs
      have he : e ≠ .finishThrown := fun h => hmem (h ▸ List.mem_cons_self e rest)
      have hrest : LockEvent.finishThrown ∉ rest :=
        fun h => hmem (List.mem_cons_of_mem e h)
      exact ih _ hrest (lockInvariant_step tok0 n nowSec hpol0 s e he hs)

/-- C5: with `n ≥ 1` concurrent callers of `asyncGetAccessToken` while the
held token is absent, expired, or refresh-eligible (any state whose policy
is not reuse), any failure-free schedule in which every caller eventually
finishes makes exactly one token REST call — the one the policy of the
initial state prescribes; in particular exactly one sign-in when no token
is held and exactly one refresh when the token is valid but inside the
ten-minute window. A caller that finds the lock taken changes nothing (it
waits for the in-flight operation instead of starting its own), and each
caller that enters re-evaluates the policy against the then-current state. -/
theorem c5_single_auth_call_under_concurrency (tok0 : Option AccessTokenData)
    (n nowSec : Nat) (events : List LockEvent)
    (hpol : tokenPolicy tok0 nowSec ≠ .reuse)
    (hn : 1 ≤ n)
    (hnofail : LockEvent.finishThrown ∉ events)
    (hpending : (lockRun (lockInit tok0 n nowSec) events).pending = 0)
    (hflight : (lockRun (lockInit tok0 n nowSec) events).inFlight = false) :
    (lockRun (lockInit tok0 n nowSec) events).ops =
      [tokenPolicy tok0 nowSec] ∧
    (tok0 = none →
      (lockRun (lockInit tok0 n nowSec) events).ops =
        [TokenAction.signIn]) ∧
    (∀ t : AccessTokenData, tok0 = some t → nowSec ≤ t.expiresAt →
      t.expiresAt < nowSec + TOKEN_TIME_TO_REFRESH →
      (lockRun (lockInit tok0 n nowSec) events).ops =
        [TokenAction.refresh]) ∧
    ∀ s : LockState, s.lock = true → lockStep s .acquire = s := by
  have hinit : lockInvariant tok0 n nowSec (lockInit tok0 n nowSec) :=
    ⟨rfl, rfl, Or.inl ⟨rfl, rfl, rfl, rfl⟩⟩
  have hinv := lockInvariant_run tok0 n nowSec hpol events
    (lockInit tok0 n nowSec) hnofail hinit
  obtain ⟨-, -, hphase⟩ := hinv
  have hops : (lockRun (lockInit tok0 n nowSec) events).ops =
      [tokenPolicy tok0 nowSec] := by
    rcases hphase with ⟨-, -, -, hpend⟩ | ⟨-, hif, -⟩ | ⟨-, hops, -⟩
    · rw [hpending] at hpend; omega
    · rw [hflight] at hif; exact absurd hif (by decide)
    · exact hops
  refine ⟨hops, ?_, ?_, ?_⟩
  · intro h0
    rw [hops, h0]
    rfl
  · intro t ht hvalid hwindow
    rw [hops, ht]
    have hr : tokenPolicy (some t) nowSec = .refresh := by
      simp only [tokenPolicy]
      rw [if_neg (by omega), if_pos hwindow]
    rw [hr]
  · intro s hl
    simp [lockStep, hl]

/-- Witness for C5 at the spec's own end-to-end scenario: two concurrent
callers and no token held, with the schedule
acquire/acquire(waits)/sign-in-completes/acquire. -/
theorem c5_single_auth_call_under_concurrency_witness :
    (tokenPolicy none 0 ≠ .reuse ∧
      (1 : Nat) ≤ 2 ∧
      LockEvent.finishThrown ∉
        ([.acquire, .acquire, .finishOk "na" "nr", .acquire] :
          List LockEvent) ∧
      (lockRun (lockInit none 2 0)
        [.acquire, .acquire, .finishOk "na" "nr", .acquire]).pending = 0 ∧
      (lockRun (lockInit none 2 0)
        [.acquire, .acquire, .finishOk "na" "nr", .acquire]).inFlight =
          false) ∧
    ((lockRun (lockInit none 2 0)
        [.acquire, .acquire, .finishOk "na" "nr", .acquire]).ops =
      [tokenPolicy none 0] ∧
      ((none : Option AccessTokenData) = none →
        (lockRun (lockInit none 2 0)
          [.acquire, .acquire, .finishOk "na" "nr", .acquire]).ops =
          [TokenAction.signIn]) ∧
      (∀ t : AccessTokenData, (none : Option AccessTokenData) = some t →
        0 ≤ t.expiresAt → t.expiresAt < 0 + TOKEN_TIME_TO_REFRESH →
        (lockRun (lockInit none 2 0)
          [.acquire, .acquire, .finishOk "na" "nr", .acquire]).ops =
          [TokenAction.refresh]) ∧
      ∀ s : LockState, s.lock = true → lockStep s .acquire = s) :=
  ⟨⟨by decide, by decide, by decide, by decide, by decide⟩,
    c5_single_auth_call_under_concurrency none 2 0
      [.acquire, .acquire, .finishOk "na" "nr", .acquire]
      (by decide) (by decide) (by decide) (by decide) (by decide)⟩

/-! ## Pending-command lifecycle -/

/-- A resolved (dead) pending slot absorbs every further event: the losing
path is a no-op. -/
theorem pendingStep_dead (cmdId : String) (s : PendingSlot)
    (hp : s.present = false) (ht : s.timerActive = false) (e : PendingEvent) :
    pendingStep cmdId s e = s := by
  cases e with
  | confirm r =>
      by_cases h : r.id = cmdId
      · simp [pendingStep, h, hp]
      · simp [pendingStep, h]
  | timerFire => simp [pendingStep, ht]

/-- A dead pending slot stays dead under any event schedule. -/
theorem pendingRun_dead (cmdId : String) (s : PendingSlot)
    (hp : s.present = false) (ht : s.timerActive = false) :
    ∀ events : List PendingEvent, events.foldl (pendingStep cmdId) s = s := by
  intro events
  induction events with
  | nil => rfl
  | cons e rest ih =>
      rw [List.foldl_cons, pendingStep_dead cmdId s hp ht e]
      exact ih

/-- Full characterization of a registered pending command under any event
schedule: the first effective event (matching confirmation or timer fire)
resolves it with its value and removes it; without an effective event it
stays registered, timer armed and unresolved. -/
theorem pendingRun_characterization (cmdId : String)
    (events : List PendingEvent) :
    events.foldl (pendingStep cmdId) pendingInit =
      (match events.find? (isEffective cmdId) with
       | some e => { present := false, timerActive := false,
                     resolved := [eventValue e] }
       | none => pendingInit) := by
  induction events with
  | nil => rfl
  | cons e rest ih =>
      by_cases he : isEffective cmdId e = true
      · have hstep : pendingStep cmdId pendingInit e =
            { present := false, timerActive := false,
              resolved := [eventValue e] } := by
          cases e with
          | confirm r =>
              have hid : r.id = cmdId := by simpa [isEffective] using he
              simp [pendingStep, pendingInit, hid, eventValue]
          | timerFire => simp [pendingStep, pendingInit, eventValue]
        rw [List.foldl_cons, hstep, pendingRun_dead cmdId _ rfl rfl rest,
          List.find?_cons_of_pos _ he]
      · have hne : isEffective cmdId e = false := by simpa using he
        have hstep : pendingStep cmdId pendingInit e = pendingInit := by
          cases e with
          | confirm r =>
              have hid : ¬ r.id = cmdId := by simpa [isEffective] using hne
              simp [pendingStep, hid]
          | timerFire => simp [isEffective] at hne
        rw [List.foldl_cons, hstep, ih, List.find?_cons_of_neg _ (by simp [hne])]

/-- C6: a registered pending command is removed and resolved exactly once,
by the first of a matching confirmation frame or its timeout — the
resolved values are exactly the value of the first effective event — and a
slot that has already been resolved (removed, timer cleared) treats any
further event as a no-op: it can never be resolved twice. -/
theorem c6_pending_resolved_exactly_once (cmdId : String)
    (events : List PendingEvent) :
    ((events.foldl (pendingStep cmdId) pendingInit).resolved =
      ((events.find? (isEffective cmdId)).map eventValue).toList) ∧
    (events.foldl (pendingStep cmdId) pendingInit).resolved.length ≤ 1 ∧
    ∀ (s : PendingSlot) (e : PendingEvent), s.present = false →
      s.timerActive = false → pendingStep cmdId s e = s := by
  rw [pendingRun_characterization]
  refine ⟨?_, ?_, fun s e hp ht => pendingStep_dead cmdId s hp ht e⟩ <;>
    cases h : events.find? (isEffective cmdId) <;> simp [pendingInit]

/-- C4: when no realtime session is connected, `executeCommand` resolves
`true` immediately after REST acceptance; when one is connected, it
resolves with the value of the first event to reach the pending entry —
`true` for a matching confirmation with SUCCESS status inside the timeout,
`false` for a matching confirmation with any other status, `false` for the
timeout — the entry is in the map at the end exactly when no effective
event arrived, and the timeout constant is 10 seconds. -/
theorem c4_execute_command_resolution (cmdId : String)
    (events : List PendingEvent) :
    executeCommandOutcome false cmdId events = some true ∧
    executeCommandOutcome true cmdId events =
      (events.find? (isEffective cmdId)).map eventValue ∧
    (events.foldl (pendingStep cmdId) pendingInit).present =
      (events.find? (isEffective cmdId)).isNone ∧
    PENDING_COMMAND_TIMEOUT = 10000 := by
  refine ⟨rfl, ?_, ?_, rfl⟩
  · simp only [executeCommandOutcome, if_true]
    rw [pendingRun_characterization]
    cases h : events.find? (isEffective cmdId) <;> simp [pendingInit]
  · rw [pendingRun_characterization]
    cases h : events.find? (isEffective cmdId) <;> simp [pendingInit]

/-! ## The reconnect loop -/

/-- Counterexample to C7: with auto-reconnect enabled, an iteration that
ends in a clean post-handshake close is followed by an immediate retry —
not by the 5-second backoff the claim asserts for every connection end. -/
theorem c7_counterexample :
    websocketReconnectStep true .cleanClose = .retryNow ∧
    LoopAction.retryNow ≠ LoopAction.retryAfterDelayMs 5000 :=
  ⟨rfl, by decide⟩

/-- C7 amended: only an iteration that ends in a thrown error (a connection
attempt or handshake failure) is followed by the fixed 5-second backoff
before retrying; a clean post-handshake close is retried immediately with
no backoff; and when auto-reconnect is disabled at call time the loop body
never runs, so there is no retry (and no first attempt either). -/
theorem c7_reconnect_backoff (o : ConnOutcome) :
    websocketReconnectStep true .connectError = .retryAfterDelayMs 5000 ∧
    websocketReconnectStep true .cleanClose = .retryNow ∧
    websocketReconnectStep false o = .exitLoop :=
  ⟨rfl, rfl, rfl⟩

/-! ## The STOMP codec: splitting lemmas -/

/-- The split is fuel-invariant once the fuel covers the input length. -/
theorem splitSeqAux_fuel (sep : List Char) (hsep : sep ≠ []) :
    ∀ (n : Nat) (xs cur : List Char) (f g : Nat),
      xs.length ≤ n → xs.length ≤ f → xs.length ≤ g →
      splitSeqAux sep f xs cur = splitSeqAux sep g xs cur := by
  intro n
  induction n with
  | zero =>
      intro xs cur f g hn _ _
      have hxs : xs = [] := List.length_eq_zero.mp (Nat.le_zero.mp hn)
      subst hxs
      cases f <;> cases g <;> simp [splitSeqAux]
  | succ n ih =>
      intro xs cur f g hn hf hg
      cases xs with
      | nil => cases f <;> cases g <;> simp [splitSeqAux]
      | cons c rest =>
          have hsl : 1 ≤ sep.length := by
            cases sep with
            | nil => exact absurd rfl hsep
            | cons a l => simp
          cases f with
          | zero => simp at hf
          | succ f2 =>
              cases g with
              | zero => simp at hg
              | succ g2 =>
                  simp only [splitSeqAux]
                  have hn2 : rest.length + 1 ≤ n + 1 := by simpa using hn
                  have hf2 : rest.length + 1 ≤ f2 + 1 := by simpa using hf
                  have hg2 : rest.length + 1 ≤ g2 + 1 := by simpa using hg
                  by_cases hpre : sep.isPrefixOf (c :: rest) = true
                  · rw [if_pos hpre, if_pos hpre]
                    congr 1
                    apply ih <;>
                      simp only [List.length_drop, List.length_cons] <;> omega
                  · rw [if_neg hpre, if_neg hpre]
                    apply ih <;> omega

/-- Splitting a list with no separator occurrence yields one part. -/
theorem splitSeqAux_not_hasSeq (sep : List Char) :
    ∀ (xs cur : List Char) (f : Nat), hasSeq sep xs = false →
      splitSeqAux sep f xs cur = [cur.reverse ++ xs] := by
  intro xs
  induction xs with
  | nil =>
      intro cur f _
      cases f <;> simp [splitSeqAux]
  | cons c rest ih =>
      intro cur f h
      simp only [hasSeq, Bool.or_eq_false_iff] at h
      cases f with
      | zero => simp [splitSeqAux]
      | succ f2 =>
          simp only [splitSeqAux]
          rw [if_neg (by simp [h.1]), ih (c :: cur) f2 h.2]
          simp

/-- The split never produces the empty list of parts. -/
theorem splitSeqAux_ne_nil (sep : List Char) :
    ∀ (f : Nat) (xs cur : List Char), splitSeqAux sep f xs cur ≠ [] := by
  intro f
  induction f with
  | zero => intro xs cur; simp [splitSeqAux]
  | succ f2 ih =>
      intro xs cur
      cases xs with
      | nil => simp [splitSeqAux]
      | cons c rest =>
          simp only [splitSeqAux]
          split
          · simp
          · exact ih rest (c :: cur)

/-- Intercalating a cons with a non-empty tail. -/
theorem intercalate_cons_of_ne_nil (sep a : List Char)
    (L : List (List Char)) (h : L ≠ []) :
    List.intercalate sep (a :: L) = a ++ sep ++ List.intercalate sep L := by
  obtain ⟨b, L2, rfl⟩ := List.exists_cons_of_ne_nil h
  simp [List.intercalate]

/-- Joining the split parts with the separator restores the input (the JS
`split`/`join` inverse law). -/
theorem intercalate_splitSeqAux (sep : List Char) :
    ∀ (f : Nat) (xs cur : List Char),
      List.intercalate sep (splitSeqAux sep f xs cur) = cur.reverse ++ xs := by
  intro f
  induction f with
  | zero => intro xs cur; simp [splitSeqAux, List.intercalate]
  | succ f2 ih =>
      intro xs cur
      cases xs with
      | nil => simp [splitSeqAux, List.intercalate]
      | cons c rest =>
          simp only [splitSeqAux]
          split
          · next hpre =>
              obtain ⟨tail, htail⟩ := List.isPrefixOf_iff_prefix.mp hpre
              rw [intercalate_cons_of_ne_nil sep _ _
                (splitSeqAux_ne_nil sep f2 _ _), ih]
              rw [show (c :: rest).drop sep.length = tail from by
                rw [← htail]; exact List.drop_left sep tail]
              simp only [List.reverse_nil, List.nil_append]
              rw [List.append_assoc, htail]
          · next hpre =>
              rw [ih rest (c :: cur)]
              simp

/-- Top-level form of the split/join inverse law. -/
theorem intercalate_splitSeq (sep xs : List Char) :
    List.intercalate sep (splitSeq sep xs) = xs := by
  unfold splitSeq
  rw [intercalate_splitSeqAux]
  simp

/-- Top-level form: no separator occurrence means a single part. -/
theorem splitSeq_not_hasSeq (sep xs : List Char)
    (h : hasSeq sep xs = false) : splitSeq sep xs = [xs] := by
  unfold splitSeq
  rw [splitSeqAux_not_hasSeq sep xs [] xs.length h]
  simp

/-- Top-level form: the split has at least one part. -/
theorem splitSeq_ne_nil (sep xs : List Char) : splitSeq sep xs ≠ [] :=
  splitSeqAux_ne_nil sep xs.length xs []

/-- A single-character separator does not occur in a list avoiding it. -/
theorem hasSeq_single_eq_false {c : Char} :
    ∀ {xs : List Char}, c ∉ xs → hasSeq [c] xs = false := by
  intro xs
  induction xs with
  | nil => intro _; rfl
  | cons a rest ih =>
      intro h
      rw [List.mem_cons, not_or] at h
      simp only [hasSeq, Bool.or_eq_false_iff]
      refine ⟨?_, ih h.2⟩
      simp [List.isPrefixOf]
      exact fun hh => h.1 hh

/-- A doubled character does not occur in a list avoiding the character. -/
theorem hasSeq_pair_eq_false {c : Char} :
    ∀ {xs : List Char}, c ∉ xs → hasSeq [c, c] xs = false := by
  intro xs
  induction xs with
  | nil => intro _; rfl
  | cons a rest ih =>
      intro h
      rw [List.mem_cons, not_or] at h
      simp only [hasSeq, Bool.or_eq_false_iff]
      refine ⟨?_, ih h.2⟩
      simp [List.isPrefixOf]
      exact fun hh => absurd hh h.1

/-- A doubled character does not occur across `l ++ c :: R` when `l` avoids
the character, `R` does not start with it, and `R` itself has no doubled
occurrence. -/
theorem hasSeq_pair_append {c : Char} :
    ∀ (l R : List Char), c ∉ l → R.head? ≠ some c →
      hasSeq [c, c] R = false → hasSeq [c, c] (l ++ c :: R) = false := by
  intro l
  induction l with
  | nil =>
      intro R _ hR hRseq
      simp only [List.nil_append, hasSeq, Bool.or_eq_false_iff]
      refine ⟨?_, hRseq⟩
      cases R with
      | nil => simp [List.isPrefixOf]
      | cons r R2 =>
          have hr : ¬ (c = r) := by
            intro h
            exact hR (by rw [← h]; rfl)
          simp [List.isPrefixOf, hr]
  | cons a l2 ih =>
      intro R hl hR hRseq
      rw [List.mem_cons, not_or] at hl
      rw [List.cons_append]
      simp only [hasSeq, Bool.or_eq_false_iff]
      refine ⟨?_, ih R hl.2 hR hRseq⟩
      simp [List.isPrefixOf]
      exact fun hh => absurd hh hl.1

/-- Appending a non-`c` character cannot create a doubled-`c` occurrence. -/
theorem hasSeq_pair_append_single {c z : Char} (hz : z ≠ c) :
    ∀ (b : List Char), hasSeq [c, c] b = false →
      hasSeq [c, c] (b ++ [z]) = false := by
  intro b
  induction b with
  | nil =>
      intro _
      simp [hasSeq, List.isPrefixOf]
  | cons a b2 ih =>
      intro h
      simp only [hasSeq, Bool.or_eq_false_iff] at h
      rw [List.cons_append]
      simp only [hasSeq, Bool.or_eq_false_iff]
      refine ⟨?_, ih h.2⟩
      by_cases hac : c = a
      · subst hac
        cases b2 with
        | nil => simp [List.isPrefixOf]; exact fun hh => absurd hh.symm hz
        | cons a2 b3 =>
            have ha2 : ¬ (c = a2) := by
              intro hh
              rw [← hh] at h
              simp [List.isPrefixOf] at h
            rw [List.cons_append]
            simp [List.isPrefixOf, ha2]
      · simp [List.isPrefixOf, hac]

/-- Splitting on a single character at its first occurrence. -/
theorem splitSeqAux_single_append (c : Char) :
    ∀ (A B cur : List Char) (f : Nat), c ∉ A →
      A.length + 1 + B.length ≤ f →
      splitSeqAux [c] f (A ++ c :: B) cur =
        (cur.reverse ++ A) :: splitSeq [c] B := by
  intro A
  induction A with
  | nil =>
      intro B cur f _ hf
      cases f with
      | zero => simp at hf
      | succ f2 =>
          rw [List.nil_append]
          simp only [splitSeqAux]
          rw [if_pos (by simp [List.isPrefixOf])]
          rw [show List.drop ([c] : List Char).length (c :: B) = B from rfl]
          rw [splitSeqAux_fuel [c] (by simp) B.length B [] f2 B.length
            le_rfl (by simp at hf; omega) le_rfl]
          simp [splitSeq]
  | cons a A2 ihA =>
      intro B cur f hA hf
      rw [List.mem_cons, not_or] at hA
      rw [List.cons_append]
      cases f with
      | zero => simp at hf
      | succ f2 =>
          simp only [splitSeqAux]
          rw [if_neg (by simp [List.isPrefixOf]; exact fun hh => absurd hh hA.1)]
          rw [ihA B (a :: cur) f2 hA.2 (by simp at hf ⊢; omega)]
          simp

/-- Splitting on a doubled character at its first occurrence: `A` has no
doubled occurrence and does not end with the character. -/
theorem splitSeqAux_pair_append (c : Char) :
    ∀ (A B cur : List Char) (f : Nat), hasSeq [c, c] A = false →
      A.getLast? ≠ some c → A.length + 2 + B.length ≤ f →
      splitSeqAux [c, c] f (A ++ c :: c :: B) cur =
        (cur.reverse ++ A) :: splitSeq [c, c] B := by
  intro A
  induction A with
  | nil =>
      intro B cur f _ _ hf
      cases f with
      | zero => simp at hf
      | succ f2 =>
          rw [List.nil_append]
          simp only [splitSeqAux]
          rw [if_pos (by simp [List.isPrefixOf])]
          rw [show List.drop ([c, c] : List Char).length (c :: c :: B) = B from rfl]
          rw [splitSeqAux_fuel [c, c] (by simp) B.length B [] f2 B.length
            le_rfl (by simp at hf; omega) le_rfl]
          simp [splitSeq]
  | cons a A2 ihA =>
      intro B cur f hA hlast hf
      rw [List.cons_append]
      cases f with
      | zero => simp at hf
      | succ f2 =>
          simp only [hasSeq, Bool.or_eq_false_iff] at hA
          have hnp : ¬ ([c, c].isPrefixOf (a :: (A2 ++ c :: c :: B)) = true) := by
            by_cases hac : c = a
            · subst hac
              cases A2 with
              | nil => simp at hlast
              | cons a2 A3 =>
                  have ha2 : ¬ (c = a2) := by
                    intro hh
                    rw [← hh] at hA
                    simp [List.isPrefixOf] at hA
                  rw [List.cons_append]
                  simp [List.isPrefixOf, ha2]
            · simp [List.isPrefixOf, hac]
          simp only [splitSeqAux]
          rw [if_neg hnp]
          have hlast2 : A2.getLast? ≠ some c := by
            cases A2 with
            | nil => simp
            | cons a2 A3 => rw [List.getLast?_cons_cons] at hlast; exact hlast
          rw [ihA B (a :: cur) f2 hA.2 hlast2 (by simp at hf ⊢; omega)]
          simp

/-- Top-level single-character split at the first occurrence. -/
theorem splitSeq_single_append (c : Char) (A B : List Char) (hA : c ∉ A) :
    splitSeq [c] (A ++ c :: B) = A :: splitSeq [c] B := by
  unfold splitSeq
  rw [splitSeqAux_single_append c A B [] (A ++ c :: B).length hA
    (by simp [List.length_append]; omega)]
  simp [splitSeq]

/-- Top-level doubled-character split at the first occurrence. -/
theorem splitSeq_pair_append (c : Char) (A B : List Char)
    (hA : hasSeq [c, c] A = false) (hlast : A.getLast? ≠ some c) :
    splitSeq [c, c] (A ++ c :: c :: B) = A :: splitSeq [c, c] B := by
  unfold splitSeq
  rw [splitSeqAux_pair_append c A B [] (A ++ c :: c :: B).length hA hlast
    (by simp [List.length_append]; omega)]
  simp [splitSeq]

/-! ## The STOMP codec: intercalation lemmas -/

/-- Intercalating with a non-empty first line starts with that line. -/
theorem head?_intercalate (c : Char) (l : List Char) (ls : List (List Char))
    (hl : l ≠ []) :
    (List.intercalate [c] (l :: ls)).head? = l.head? := by
  obtain ⟨x, l2, rfl⟩ := List.exists_cons_of_ne_nil hl
  cases ls with
  | nil => simp [List.intercalate]
  | cons l2b ls2 =>
      rw [intercalate_cons_of_ne_nil [c] _ _ (by simp)]
      simp

/-- Intercalation of a non-empty list of lines with a non-empty head is
non-empty. -/
theorem intercalate_ne_nil (c : Char) (l : List Char) (ls : List (List Char))
    (hl : l ≠ []) : List.intercalate [c] (l :: ls) ≠ [] := by
  intro h
  have hh := head?_intercalate c l ls hl
  rw [h] at hh
  obtain ⟨x, l2, rfl⟩ := List.exists_cons_of_ne_nil hl
  simp at hh

/-- No doubled separator occurs in an intercalation of separator-free
non-empty lines. -/
theorem hasSeq_pair_intercalate (c : Char) :
    ∀ lines : List (List Char), (∀ l ∈ lines, l ≠ [] ∧ c ∉ l) →
      hasSeq [c, c] (List.intercalate [c] lines) = false := by
  intro lines
  induction lines with
  | nil => intro _; rfl
  | cons l ls ih =>
      intro hmem
      cases ls with
      | nil =>
          rw [show List.intercalate [c] [l] = l from by simp [List.intercalate]]
          exact hasSeq_pair_eq_false (hmem l (by simp)).2
      | cons l2 ls2 =>
          rw [intercalate_cons_of_ne_nil [c] _ _ (by simp),
            List.append_assoc, List.singleton_append]
          apply hasSeq_pair_append
          · exact (hmem l (by simp)).2
          · rw [head?_intercalate c l2 ls2 (hmem l2 (by simp)).1]
            obtain ⟨x, l2t, hx⟩ :=
              List.exists_cons_of_ne_nil (hmem l2 (by simp)).1
            rw [hx]
            simp only [List.head?_cons, ne_eq, Option.some.injEq]
            intro hh
            exact (hmem l2 (by simp)).2 (by rw [hx, hh]; exact List.mem_cons_self c l2t)
          · exact ih (fun l3 h3 => hmem l3 (by simp [h3]))

/-- An intercalation of separator-free non-empty lines does not end with
the separator. -/
theorem getLast?_intercalate_ne (c : Char) :
    ∀ lines : List (List Char), (∀ l ∈ lines, l ≠ [] ∧ c ∉ l) →
      lines ≠ [] → (List.intercalate [c] lines).getLast? ≠ some c := by
  intro lines
  induction lines with
  | nil => intro _ h; exact absurd rfl h
  | cons l ls ih =>
      intro hmem _
      cases ls with
      | nil =>
          rw [show List.intercalate [c] [l] = l from by simp [List.intercalate]]
          intro hh
          have hne := (hmem l (by simp)).1
          rw [List.getLast?_eq_getLast_of_ne_nil hne] at hh
          have hlast : l.getLast hne = c := Option.some.inj hh
          exact (hmem l (by simp)).2 (hlast ▸ List.getLast_mem hne)
      | cons l2 ls2 =>
          have hR := intercalate_ne_nil c l2 ls2 (hmem l2 (by simp)).1
          rw [intercalate_cons_of_ne_nil [c] _ _ (by simp), List.append_assoc,
            List.getLast?_append_of_ne_nil _ (by simp), List.singleton_append]
          obtain ⟨y, R2, hy⟩ := List.exists_cons_of_ne_nil hR
          rw [hy, List.getLast?_cons_cons, ← hy]
          exact ih (fun l3 h3 => hmem l3 (by simp [h3])) (by simp)

/-- Splitting an intercalation of separator-free lines recovers the lines. -/
theorem splitSeq_intercalate (c : Char) :
    ∀ lines : List (List Char), lines ≠ [] → (∀ l ∈ lines, c ∉ l) →
      splitSeq [c] (List.intercalate [c] lines) = lines := by
  intro lines
  induction lines with
  | nil => intro h; exact absurd rfl h
  | cons l ls ih =>
      intro _ hmem
      cases ls with
      | nil =>
          rw [show List.intercalate [c] [l] = l from by simp [List.intercalate]]
          exact splitSeq_not_hasSeq [c] l
            (hasSeq_single_eq_false (hmem l (by simp)))
      | cons l2 ls2 =>
          rw [intercalate_cons_of_ne_nil [c] _ _ (by simp),
            List.append_assoc, List.singleton_append,
            splitSeq_single_append c _ _ (hmem l (by simp)),
            ih (by simp) (fun l3 h3 => hmem l3 (by simp [h3]))]

/-- The character content of the JS join is the list intercalation. -/
theorem jsJoin_data (sep : String) :
    ∀ parts : List String,
      (jsJoin sep parts).data =
        List.intercalate sep.data (parts.map String.data) := by
  intro parts
  induction parts with
  | nil => simp [jsJoin, List.intercalate]
  | cons x rest ih =>
      cases rest with
      | nil => simp [jsJoin, List.intercalate]
      | cons y rest2 =>
          simp only [jsJoin, String.data_append, ih, List.map_cons]
          simp [List.intercalate, List.append_assoc]

/-- Decoding one well-formed encoded header line. -/
theorem parseHeaderLine_encode (k v : String) (hk : k ≠ "")
    (hkc : ':' ∉ k.data) :
    parseHeaderLine ((k ++ ":" ++ v).data) = some (k, v) := by
  have hdata : (k ++ ":" ++ v).data = k.data ++ ':' :: v.data := by
    rw [String.data_append, String.data_append]
    simp [show (":" : String).data = [':'] from rfl]
  rw [hdata]
  unfold parseHeaderLine
  rw [splitSeq_single_append ':' k.data v.data hkc]
  obtain ⟨y, L, hYL⟩ :=
    List.exists_cons_of_ne_nil (splitSeq_ne_nil [':'] v.data)
  rw [hYL]
  have hknil : ¬ (k.data = []) := fun h => hk (String.ext h)
  show (if k.data = [] then none
    else some (String.mk k.data, String.mk (List.intercalate [':'] (y :: L))))
      = some (k, v)
  rw [if_neg hknil, ← hYL, intercalate_splitSeq]

/-- Folding the decoder's header loop over well-formed encoded header lines
appends the headers in order: with distinct keys, JS object insertion is a
plain append. -/
theorem decode_fold_headers :
    ∀ (hs : List (String × String)) (acc : List (String × String)),
      (∀ kv ∈ hs, kv.1 ≠ "" ∧ ':' ∉ kv.1.data) →
      (∀ kv ∈ hs, ∀ p ∈ acc, p.1 ≠ kv.1) →
      (hs.map Prod.fst).Nodup →
      List.foldl
        (fun acc line =>
          match parseHeaderLine line with
          | some kv => recordSet acc kv.1 kv.2
          | none => acc) acc
        (hs.map (fun kv => (kv.1 ++ ":" ++ kv.2).data)) = acc ++ hs := by
  intro hs
  induction hs with
  | nil => intro acc _ _ _; simp
  | cons kv hs2 ih =>
      intro acc hwf hdisj hnodup
      simp only [List.map_cons, List.foldl_cons]
      rw [parseHeaderLine_encode kv.1 kv.2 (hwf kv (by simp)).1
        (hwf kv (by simp)).2]
      have hset : recordSet acc kv.1 kv.2 = acc ++ [kv] := by
        unfold recordSet
        rw [if_neg (by
          simp only [List.any_eq_true, decide_eq_true_eq]
          push_neg
          intro p hp
          exact hdisj kv (by simp) p hp)]
      rw [show (match some (kv.1, kv.2) with
          | some kv2 => recordSet acc kv2.1 kv2.2
          | none => acc) = recordSet acc kv.1 kv.2 from rfl, hset]
      rw [List.map_cons, List.nodup_cons] at hnodup
      rw [ih (acc ++ [kv]) (fun kv2 h2 => hwf kv2 (by simp [h2])) ?hdisj2
        hnodup.2]
      · simp
      case hdisj2 =>
        intro kv2 h2 p hp
        rcases List.mem_append.mp hp with hpa | hpk
        · exact hdisj kv2 (by simp [h2]) p hpa
        · rw [List.mem_singleton.mp hpk]
          intro hh
          exact hnodup.1 (hh ▸ List.mem_map.mpr ⟨kv2, h2, rfl⟩)

/-- The character content of an encoded frame: the intercalated header
block, the blank line, then the body text (empty for an omitted or empty
body) and the NUL terminator. -/
theorem encode_data (t : StompMessageType) (headers : List (String × String))
    (body : Option String) :
    (encodeStompWsMessage t headers body).data =
      List.intercalate ['\n']
        (List.map String.data
          (t.toStr :: headers.map (fun kv => kv.1 ++ ":" ++ kv.2)))
        ++ '\n' :: '\n' :: ((bodyText body).data ++ ['\x00']) := by
  have hnl : ("\n\n" : String).data = ['\n', '\n'] := rfl
  have hnul : ("\x00" : String).data = ['\x00'] := rfl
  have hemp : ("" : String).data = [] := rfl
  cases body with
  | none =>
      simp only [encodeStompWsMessage, bodyText]
      rw [String.data_append, String.data_append, hnl, hnul, jsJoin_data]
      simp [hemp]
  | some b =>
      by_cases hb : b.isEmpty = true
      · have hbe : b = "" := (String.isEmpty_iff b).mp hb
        subst hbe
        simp only [encodeStompWsMessage, bodyText]
        rw [if_pos hb]
        rw [String.data_append, String.data_append, hnl, hnul, jsJoin_data]
        simp [hemp]
      · simp only [encodeStompWsMessage, bodyText]
        rw [if_neg hb]
        rw [String.data_append, String.data_append, String.data_append,
          hnl, hnul, jsJoin_data]
        simp [List.append_assoc]

set_option maxRecDepth 10000 in
/-- Counterexample to C2: encoding the claim's own CONNECT frame (headers
host:"x" and accept-version:"1.2,1.1,1.0", no body) and decoding it yields
body `some ""` — the empty string, not null (`none`): the data part of the
encoded frame is the NUL terminator, which is a truthy string in JS, and
stripping it leaves the empty string. -/
theorem c2_counterexample :
    (decodeStompWsMessage (encodeStompWsMessage .CONNECT
        [("host", "x"), ("accept-version", "1.2,1.1,1.0")] none)).data
        = some "" ∧
    (some "" : Option String) ≠ none :=
  ⟨by decide, by decide⟩

/-- C2 (amended): for every frame type, every insertion-ordered header list
with distinct non-empty keys free of ':' and newlines and values free of
newlines, and every body that is absent, empty, or free of blank-line
sequences, decoding the encoded frame reproduces the type string, exactly
the header list, and the body — where an omitted or empty body decodes to
the empty string (not null). -/
theorem c2_roundtrip (t : StompMessageType) (headers : List (String × String))
    (body : Option String)
    (hkeys : ∀ kv ∈ headers, kv.1 ≠ "" ∧ ':' ∉ kv.1.data ∧ '\n' ∉ kv.1.data)
    (hvals : ∀ kv ∈ headers, '\n' ∉ kv.2.data)
    (hnodup : (headers.map Prod.fst).Nodup)
    (hbody : ∀ b, body = some b → hasSeq ['\n', '\n'] b.data = false) :
    decodeStompWsMessage (encodeStompWsMessage t headers body) =
      { msgType := t.toStr, headers := headers,
        data := some (bodyText body) } := by
  have hlinewf : ∀ l ∈ List.map String.data
      (t.toStr :: headers.map (fun kv => kv.1 ++ ":" ++ kv.2)),
      l ≠ [] ∧ '\n' ∉ l := by
    intro l hl
    simp only [List.map_cons, List.mem_cons, List.map_map, Function.comp,
      List.mem_map] at hl
    rcases hl with rfl | ⟨kv, hkv, rfl⟩
    · cases t <;> exact ⟨by decide, by decide⟩
    · have hd : (kv.1 ++ ":" ++ kv.2).data = kv.1.data ++ ':' :: kv.2.data := by
        rw [String.data_append, String.data_append]
        simp [show (":" : String).data = [':'] from rfl]
      rw [hd]
      refine ⟨by simp, ?_⟩
      intro hmem
      rcases List.mem_append.mp hmem with hk | hcv
      · exact (hkeys kv hkv).2.2 hk
      · rcases List.mem_cons.mp hcv with hc | hv
        · exact absurd hc (by decide)
        · exact hvals kv hkv hv
  have hA1 := hasSeq_pair_intercalate '\n' _ hlinewf
  have hA2 := getLast?_intercalate_ne '\n' _ hlinewf (by simp)
  have hDbody : hasSeq ['\n', '\n'] (bodyText body).data = false := by
    cases body with
    | none => rfl
    | some b => exact hbody b rfl
  have hD : hasSeq ['\n', '\n'] ((bodyText body).data ++ ['\x00']) = false :=
    hasSeq_pair_append_single (by decide) _ hDbody
  simp only [decodeStompWsMessage]
  rw [encode_data t headers body,
    splitSeq_pair_append '\n' _ _ hA1 hA2, splitSeq_not_hasSeq _ _ hD]
  simp only [List.headD_cons]
  rw [splitSeq_intercalate '\n' _ (by simp) (fun l hl => (hlinewf l hl).2)]
  simp only [List.map_cons, List.drop_succ_cons, List.drop_zero,
    List.headD_cons, List.map_map]
  rw [show (List.map (String.data ∘ fun kv => kv.1 ++ ":" ++ kv.2) headers) =
      headers.map (fun kv => (kv.1 ++ ":" ++ kv.2).data) from rfl]
  rw [decode_fold_headers headers []
    (fun kv hkv => ⟨(hkeys kv hkv).1, (hkeys kv hkv).2.1⟩)
    (fun kv _ p hp => absurd hp (List.not_mem_nil p)) hnodup]
  cases hbd : (bodyText body).data with
  | nil =>
      have hmk : bodyText body = "" := String.ext hbd
      simp only [List.nil_append]
      rw [if_pos (show (['\x00'] : List Char).getLast? = some '\x00' from by
        decide), hmk]
      rfl
  | cons x xs =>
      simp only [List.cons_append, List.nil_append]
      have hlast : (x :: (xs ++ ['\x00'])).getLast? = some '\x00' := by
        rw [← List.cons_append]
        exact List.getLast?_concat _
      have hdrop : (x :: (xs ++ ['\x00'])).dropLast = x :: xs := by
        rw [← List.cons_append]
        exact List.dropLast_concat
      rw [if_pos hlast, hdrop, ← hbd]

set_option maxRecDepth 10000 in
/-- Witness for the amended C2 at the claim's CONNECT scenario. -/
theorem c2_roundtrip_witness :
    (∀ kv ∈ ([("host", "x"), ("accept-version", "1.2,1.1,1.0")] :
        List (String × String)),
      kv.1 ≠ "" ∧ ':' ∉ kv.1.data ∧ '\n' ∉ kv.1.data) ∧
    (∀ kv ∈ ([("host", "x"), ("accept-version", "1.2,1.1,1.0")] :
        List (String × String)), '\n' ∉ kv.2.data) ∧
    (([("host", "x"), ("accept-version", "1.2,1.1,1.0")] :
        List (String × String)).map Prod.fst).Nodup ∧
    decodeStompWsMessage (encodeStompWsMessage .CONNECT
        [("host", "x"), ("accept-version", "1.2,1.1,1.0")] none) =
      { msgType := StompMessageType.CONNECT.toStr,
        headers := [("host", "x"), ("accept-version", "1.2,1.1,1.0")],
        data := some (bodyText none) } :=
  ⟨by decide, by decide, by decide,
    c2_roundtrip .CONNECT
      [("host", "x"), ("accept-version", "1.2,1.1,1.0")] none
      (by decide) (by decide) (by decide) (fun b h => nomatch h)⟩

end LaMarzocco
